import Mathlib

/-!
Verification of the FinSmartAI Indian-market data pipeline.

Shallow embedding of the locally authored numeric logic of the repository:

* `tokenize_data.py` — the `KronosDataTokenizer` (quantile discretization,
  mixed-radix composite tokens, chunking into fixed-length windows), and
  `create_sequences_for_training` (sliding-window input/target pairs);
* `clean_normalize_data.py` — `clean_data` (per-symbol IQR outlier removal);
* `kronos_predict.py` — the windowing part of `prepare_data_for_prediction`.

DataFrames are modelled as lists of rows; floating point values as `ℚ`;
`pandas.sort_values` (a stable sort) as insertion sort on the timestamp;
`pandas.Series.unique` as first-occurrence deduplication; pickling as the
identity on the serialized record.
-/

/-- Row of the feature table consumed by `tokenize_data.py` and
`kronos_predict.py`: a symbol, a timestamp, and named numeric feature
columns (an association list, modelling the DataFrame columns). -/
structure FeatRow where
  symbol : String
  timestamp : ℕ
  feat : List (String × ℚ)
deriving DecidableEq, Repr

/-- Column access `row[col]` on a feature row. -/
def FeatRow.val (r : FeatRow) (c : String) : ℚ :=
  ((r.feat.lookup c).getD 0)

instance : Inhabited FeatRow := ⟨⟨"", 0, []⟩⟩

/-- Timestamp order on feature rows, the sort key of
`sort_values('timestamp')`. -/
def tsLE (a b : FeatRow) : Prop := a.timestamp ≤ b.timestamp

instance : DecidableRel tsLE := fun a b => Nat.decLe a.timestamp b.timestamp

instance : IsTotal FeatRow tsLE := ⟨fun a b => Nat.le_total a.timestamp b.timestamp⟩

instance : IsTrans FeatRow tsLE := ⟨fun _ _ _ => Nat.le_trans⟩

/-- Stable sort by ascending timestamp: `data.sort_values('timestamp')`. -/
def sortByTs (data : List FeatRow) : List FeatRow :=
  List.insertionSort tsLE data

/-- First-occurrence deduplication with an accumulator of the values
already seen. -/
def uniqueListAux (seen : List String) : List String → List String
  | [] => []
  | s :: rest =>
    if s ∈ seen then uniqueListAux seen rest
    else s :: uniqueListAux (s :: seen) rest

/-- First-occurrence deduplication, modelling `pandas.Series.unique`. -/
def uniqueList (l : List String) : List String :=
  uniqueListAux [] l

/-- Symbols of a feature table in order of first appearance:
`data['symbol'].unique()`. -/
def uniqueSymbols (data : List FeatRow) : List String :=
  uniqueList (data.map (fun r => r.symbol))

/-- Chunking loop of `KronosDataTokenizer.transform` (lines 113-118):
`for i in range(0, len(xs), L): w = xs[i:i+L]; if len(w) == L: append(w)`.
The Python indices `i` are exactly `k * L` for `k < ⌈len(xs) / L⌉`. -/
def chunks {α : Type} (L : ℕ) (xs : List α) : List (List α) :=
  ((List.range ((xs.length + L - 1) / L)).map
    (fun k => (xs.drop (k * L)).take L)).filter (fun w => w.length == L)

theorem uniqueListAux_all_eq (l : List String) (s : String)
    (h : ∀ x ∈ l, x = s) :
    ∀ seen, uniqueListAux seen l
      = if l = [] then [] else if s ∈ seen then [] else [s] := by
  induction l with
  | nil => intro seen; simp [uniqueListAux]
  | cons a rest ih =>
    intro seen
    have ha : a = s := h a (List.mem_cons_self a rest)
    subst ha
    have hrest : ∀ x ∈ rest, x = a := fun x hx => h x (List.mem_cons_of_mem a hx)
    by_cases hs : a ∈ seen
    · rw [uniqueListAux, if_pos hs, ih hrest seen]
      by_cases hr : rest = [] <;> simp [hr, hs]
    · rw [uniqueListAux, if_neg hs, ih hrest (a :: seen)]
      by_cases hr : rest = [] <;> simp [hr, hs]

theorem uniqueList_all_eq (l : List String) (s : String) (h : ∀ x ∈ l, x = s) :
    uniqueList l = if l = [] then [] else [s] := by
  rw [uniqueList, uniqueListAux_all_eq l s h []]
  by_cases hl : l = [] <;> simp [hl]

theorem length_sortByTs (data : List FeatRow) :
    (sortByTs data).length = data.length :=
  List.length_insertionSort tsLE data

theorem mem_sortByTs {r : FeatRow} {data : List FeatRow} :
    r ∈ sortByTs data ↔ r ∈ data :=
  List.mem_insertionSort tsLE

theorem sorted_sortByTs (data : List FeatRow) :
    List.Sorted tsLE (sortByTs data) :=
  List.sorted_insertionSort tsLE data

/-- Fitted state of one `sklearn.KBinsDiscretizer`: its `bin_edges_` array
(for a full quantile fit with `n_bins` bins this has `n_bins + 1` entries). -/
structure Discretizer where
  bin_edges : List ℚ
deriving DecidableEq, Repr

/-- Ordinal transform of one value by a fitted discretizer:
`np.searchsorted(bin_edges[1:-1], x, side='right')`, which on the sorted
interior-edge array equals the number of interior edges `≤ x`. -/
def Discretizer.apply (d : Discretizer) (x : ℚ) : ℕ :=
  ((d.bin_edges.drop 1).dropLast.countP (fun e => decide (e ≤ x)))

/-- State of a `KronosDataTokenizer` (`tokenize_data.py`, lines 25-42):
bin count, vocabulary-size parameter, fitted per-column discretizers, and
the special-token mapping. -/
structure KronosDataTokenizer where
  n_bins : ℕ
  vocab_size : ℕ
  discretizers : List (String × Discretizer)
  special_tokens : List (String × ℕ)
deriving DecidableEq, Repr

namespace KronosDataTokenizer

/-- Constructor `KronosDataTokenizer(n_bins, vocab_size)`: empty
discretizer set, the five fixed special tokens. -/
def init (n_bins vocab_size : ℕ) : KronosDataTokenizer :=
  { n_bins := n_bins
    vocab_size := vocab_size
    discretizers := []
    special_tokens := [("pad", 0), ("unk", 1), ("cls", 2), ("sep", 3), ("mask", 4)] }

/-- Membership test `col in self.discretizers`. -/
def hasDisc (tk : KronosDataTokenizer) (c : String) : Bool :=
  (tk.discretizers.lookup c).isSome

/-- Bin index of column `c` of row `r`: `self.discretizers[col].transform`. -/
def binOf (tk : KronosDataTokenizer) (c : String) (r : FeatRow) : ℕ :=
  match tk.discretizers.lookup c with
  | some d => d.apply (r.val c)
  | none => 0

/-- The feature columns that have a fitted discretizer, in column order
(the columns line 94-95 of `transform` actually tokenizes). -/
def fittedCols (tk : KronosDataTokenizer) (cols : List String) : List String :=
  cols.filter (fun c => tk.hasDisc c)

/-- Composite-token computation of `transform` for the rows of one symbol
(lines 93-111): per fitted column, the offset bin indices of all rows
(`feature_tokens`); then per row index the mixed-radix accumulation
`token = token * (n_bins + len(special_tokens)) + feature_tokens[j][i]`
starting from 0, guarding each step by `i < len(feature_tokens[j])` as the
code does. `len(feature_tokens[0])` is modelled by `headD []` (the Python
code raises when no column is fitted; every claim below assumes at least
one fitted column where this matters). -/
def transformCombined (tk : KronosDataTokenizer) (cols : List String)
    (srows : List FeatRow) : List ℕ :=
  let featureTokens := (tk.fittedCols cols).map
    (fun c => srows.map (fun r => tk.binOf c r + tk.special_tokens.length))
  (List.range (featureTokens.headD []).length).map (fun i =>
    featureTokens.foldl
      (fun token ft =>
        if i < ft.length then
          token * (tk.n_bins + tk.special_tokens.length) + ft.getD i 0
        else token)
      0)

/-- The `transform` method (lines 71-123): per symbol in
first-appearance order, sort that symbol's rows by timestamp, compute the
composite-token sequence, and chunk it into full windows of
`sequence_length`. -/
def transform (tk : KronosDataTokenizer) (data : List FeatRow)
    (cols : List String) (sequence_length : ℕ) : List (List ℕ) :=
  (uniqueSymbols data).flatMap (fun s =>
    let srows := sortByTs (data.filter (fun r => r.symbol == s))
    chunks sequence_length (tk.transformCombined cols srows))

/-- The `save` method serializes exactly these four fields (lines 132-137);
the pickle blob is modelled as the record itself. -/
structure SavedData where
  n_bins : ℕ
  vocab_size : ℕ
  discretizers : List (String × Discretizer)
  special_tokens : List (String × ℕ)
deriving DecidableEq, Repr

/-- The `save` method (lines 125-142). -/
def save (tk : KronosDataTokenizer) : SavedData :=
  { n_bins := tk.n_bins
    vocab_size := tk.vocab_size
    discretizers := tk.discretizers
    special_tokens := tk.special_tokens }

/-- The `load` classmethod (lines 144-166): construct via
`cls(n_bins, vocab_size)`, then overwrite the discretizers and the
special-token mapping from the blob. No refitting. -/
def load (td : SavedData) : KronosDataTokenizer :=
  let tokenizer := init td.n_bins td.vocab_size
  { tokenizer with
    discretizers := td.discretizers
    special_tokens := td.special_tokens }

end KronosDataTokenizer

/-- Per-row composite token: the row-major reading of the accumulation in
`transform` — fold over the fitted columns in column order with
`token = token * (n_bins + len(special_tokens)) + (bin + len(special_tokens))`
starting from 0. `transformCombined` is proved equal to mapping this over
the rows. -/
def rowToken (tk : KronosDataTokenizer) (cols : List String) (r : FeatRow) : ℕ :=
  (tk.fittedCols cols).foldl
    (fun token c =>
      token * (tk.n_bins + tk.special_tokens.length)
        + (tk.binOf c r + tk.special_tokens.length))
    0

/-- Mixed-radix accumulation as the spec words it: start from 0 and fold
`token = token * radix + digit` over the digit list. -/
def mixedRadixEncode (radix : ℕ) (digits : List ℕ) : ℕ :=
  digits.foldl (fun token d => token * radix + d) 0

/-- The feature matrix `symbol_data[feature_columns].values` of one symbol,
rows sorted by timestamp (`create_sequences_for_training`, lines 214-218). -/
def featMatrix (data : List FeatRow) (s : String) (cols : List String) :
    List (List ℚ) :=
  (sortByTs (data.filter (fun r => r.symbol == s))).map
    (fun r => cols.map (fun c => r.val c))

/-- Sliding-window pairs over one symbol's feature matrix (lines 221-229):
`for i in range(0, len(features) - L - P, S)` — the start indices are
`k * S` for `k < ⌈(len(features) - L - P) / S⌉` (with truncated `ℕ`
subtraction matching the empty `range` on a non-positive bound) — with
input `features[i : i+L]` and target `features[i+L : i+L+P]`. -/
def seqPairs {α : Type} (features : List α) (L P S : ℕ) :
    List (List α × List α) :=
  (List.range ((features.length - L - P + S - 1) / S)).map (fun k =>
    ((features.drop (k * S)).take L, (features.drop (k * S + L)).take P))

/-- The function `create_sequences_for_training` (lines 192-232): per
symbol in first-appearance order, sliding-window input/target pairs over
that symbol's chronologically sorted feature matrix, accumulated into two
parallel lists. -/
def create_sequences_for_training (data : List FeatRow) (cols : List String)
    (sequence_length prediction_length stride : ℕ) :
    List (List (List ℚ)) × List (List (List ℚ)) :=
  let pairs := (uniqueSymbols data).flatMap (fun s =>
    seqPairs (featMatrix data s cols) sequence_length prediction_length stride)
  (pairs.map Prod.fst, pairs.map Prod.snd)

/-- The windowing part of `KronosCLI.prepare_data_for_prediction`
(`kronos_predict.py`, lines 158-166): sort by timestamp; if fewer rows than
the requested sequence length are available, log a warning and shrink
`sequence_length` to the row count; return the effective length and the
last `sequence_length` rows (`data.tail(sequence_length)`). -/
def prepare_data_for_prediction (data : List FeatRow) (sequence_length : ℕ) :
    ℕ × List FeatRow :=
  let d := sortByTs data
  let sl := if d.length < sequence_length then d.length else sequence_length
  (sl, d.drop (d.length - sl))

/-- Raw OHLCV row consumed by `clean_normalize_data.py` (the field for the
`open` column is named `open_` because `open` is a Lean keyword). All
fields are present: the rows reaching the outlier-removal loop have already
passed `dropna`. -/
structure OhlcvRow where
  symbol : String
  timestamp : ℕ
  open_ : ℚ
  high : ℚ
  low : ℚ
  close : ℚ
  volume : ℚ
deriving DecidableEq, Repr

/-- Linear-interpolation quantile of a sorted sample, the default
`pandas.Series.quantile` interpolation: with `h = q * (n - 1)`,
`i = ⌊h⌋`, the result is `x_i + (h - i) * (x_(i+1) - x_i)`. The empty
series (where pandas yields NaN) is mapped to 0; it is only reached when
the symbol group is empty, in which case the subsequent filter is empty
anyway. -/
def quantileSorted (xs : List ℚ) (q : ℚ) : ℚ :=
  match xs with
  | [] => 0
  | _ :: _ =>
    let n := xs.length
    let h : ℚ := q * ((n : ℚ) - 1)
    let i : ℕ := h.floor.toNat
    let xi := xs.getD i 0
    let xi1 := xs.getD (i + 1) xi
    xi + (h - (i : ℚ)) * (xi1 - xi)

/-- `series.quantile(q)`: sort the values, then interpolate. -/
def seriesQuantile (xs : List ℚ) (q : ℚ) : ℚ :=
  quantileSorted (List.insertionSort (fun a b : ℚ => a ≤ b) xs) q

/-- Lower price-outlier bound `Q1 - 1.5 * IQR` (`clean_data`, line 73). -/
def priceLowerBound (xs : List ℚ) : ℚ :=
  seriesQuantile xs (1/4) - 3/2 * (seriesQuantile xs (3/4) - seriesQuantile xs (1/4))

/-- Upper price-outlier bound `Q3 + 1.5 * IQR` (`clean_data`, line 74). -/
def priceUpperBound (xs : List ℚ) : ℚ :=
  seriesQuantile xs (3/4) + 3/2 * (seriesQuantile xs (3/4) - seriesQuantile xs (1/4))

/-- Lower volume-outlier bound `Q1 - 3 * IQR` (`clean_data`, line 87);
the filter additionally clamps it below by 0. -/
def volumeLowerBound (xs : List ℚ) : ℚ :=
  seriesQuantile xs (1/4) - 3 * (seriesQuantile xs (3/4) - seriesQuantile xs (1/4))

/-- Upper volume-outlier bound `Q3 + 3 * IQR` (`clean_data`, line 88). -/
def volumeUpperBound (xs : List ℚ) : ℚ :=
  seriesQuantile xs (3/4) + 3 * (seriesQuantile xs (3/4) - seriesQuantile xs (1/4))

/-- One iteration of the price-column loop of `clean_data` (lines 67-80):
compute the IQR bounds of column `proj` over the current rows and keep the
rows inside them. -/
def filterPriceCol (rows : List OhlcvRow) (proj : OhlcvRow → ℚ) : List OhlcvRow :=
  let lo := priceLowerBound (rows.map proj)
  let hi := priceUpperBound (rows.map proj)
  rows.filter (fun r => decide (lo ≤ proj r) && decide (proj r ≤ hi))

/-- The volume filter of `clean_data` (lines 82-93), with the lower bound
clamped by `max(0, lower_bound_vol)`. -/
def filterVolume (rows : List OhlcvRow) : List OhlcvRow :=
  let lo := volumeLowerBound (rows.map (fun r => r.volume))
  let hi := volumeUpperBound (rows.map (fun r => r.volume))
  rows.filter (fun r => decide (max 0 lo ≤ r.volume) && decide (r.volume ≤ hi))

/-- The price-column loop of `clean_data` unrolled over
`price_columns = ['open', 'high', 'low', 'close']`: each filter recomputes
its bounds on the output of the previous one. -/
def cleanStage1 (rows : List OhlcvRow) : List OhlcvRow :=
  filterPriceCol rows (fun r => r.open_)

def cleanStage2 (rows : List OhlcvRow) : List OhlcvRow :=
  filterPriceCol (cleanStage1 rows) (fun r => r.high)

def cleanStage3 (rows : List OhlcvRow) : List OhlcvRow :=
  filterPriceCol (cleanStage2 rows) (fun r => r.low)

def cleanStage4 (rows : List OhlcvRow) : List OhlcvRow :=
  filterPriceCol (cleanStage3 rows) (fun r => r.close)

/-- Per-symbol body of the outlier-removal loop of `clean_data`: the four
sequential price filters followed by the volume filter. -/
def cleanSymbol (rows : List OhlcvRow) : List OhlcvRow :=
  filterVolume (cleanStage4 rows)

/-- The outlier-removal part of `clean_data` (lines 59-98): process each
symbol's rows independently and concatenate the per-symbol results in
first-appearance symbol order (`pd.concat`). The rows are total records,
so the preceding `dropna` is the identity here. -/
def clean_data (data : List OhlcvRow) : List OhlcvRow :=
  (uniqueList (data.map (fun r => r.symbol))).flatMap (fun s =>
    cleanSymbol (data.filter (fun r => r.symbol == s)))

/-- Row-level view of the windows of `transform`: the chunks of each
symbol's chronologically sorted rows, before tokenization. `transform` is
proved equal to mapping the per-row tokenization over these windows, so
they record exactly which rows each emitted token window is drawn from. -/
def transformRowWindows (data : List FeatRow) (sequence_length : ℕ) :
    List (List FeatRow) :=
  (uniqueSymbols data).flatMap (fun s =>
    chunks sequence_length (sortByTs (data.filter (fun r => r.symbol == s))))

/-- Row-level view of the training pairs of
`create_sequences_for_training`: the sliding-window input/target row
windows of each symbol's chronologically sorted rows, before feature
extraction. -/
def rowPairs (data : List FeatRow) (L P S : ℕ) :
    List (List FeatRow × List FeatRow) :=
  (uniqueSymbols data).flatMap (fun s =>
    seqPairs (sortByTs (data.filter (fun r => r.symbol == s))) L P S)

/-- Concrete single-symbol row: symbol `X`, timestamp `i`, one feature
column `close` with value `i`. -/
def rowAt (i : ℕ) : FeatRow := ⟨"X", i, [("close", (i : ℚ))]⟩

/-- Concrete single-symbol dataset with `K` chronologically ordered rows. -/
def dataK (K : ℕ) : List FeatRow := (List.range K).map rowAt

/-- A fitted discretizer with the 1001 bin edges 0, 1, ..., 1000 that a
full quantile fit with `n_bins = 1000` on values spread over [0, 1000]
produces. -/
def disc1000 : Discretizer := ⟨(List.range 1001).map (fun i => (i : ℚ))⟩

/-- Tokenizer with `n_bins = 1000`, default `vocab_size = 10000`, and two
fitted feature columns. -/
def tkTwoCols : KronosDataTokenizer :=
  { KronosDataTokenizer.init 1000 10000 with
    discretizers := [("open", disc1000), ("close", disc1000)] }

/-- The same tokenizer state with three fitted feature columns. -/
def tkThreeCols : KronosDataTokenizer :=
  { KronosDataTokenizer.init 1000 10000 with
    discretizers := [("open", disc1000), ("close", disc1000), ("volume", disc1000)] }

/-- The same tokenizer state as `tkThreeCols` except for `vocab_size`. -/
def tkThreeColsV : KronosDataTokenizer :=
  { KronosDataTokenizer.init 1000 99 with
    discretizers := [("open", disc1000), ("close", disc1000), ("volume", disc1000)] }

/-- A tokenizer fitted only on the `close` column. -/
def tkClose : KronosDataTokenizer :=
  { KronosDataTokenizer.init 1000 10000 with
    discretizers := [("close", disc1000)] }

/-- Concrete feature row whose every tokenized column falls in bin 0. -/
def rowZero : FeatRow := ⟨"X", 0, [("open", 0), ("close", 0), ("volume", 0)]⟩

/-- Concrete OHLCV row for the cleaning claims. -/
def rowO : OhlcvRow := ⟨"X", 0, 10, 12, 9, 11, 5⟩

/-! Helper lemmas. -/

theorem foldl_radix_shift {α : Type} (radix : ℕ) (g : α → ℕ) (cs : List α)
    (t0 : ℕ) :
    cs.foldl (fun t c => t * radix + g c) t0
      = t0 * radix ^ cs.length + cs.foldl (fun t c => t * radix + g c) 0 := by
  induction cs generalizing t0 with
  | nil => simp
  | cons c cs ih =>
    simp only [List.foldl_cons, List.length_cons]
    rw [ih (t0 * radix + g c), ih (0 * radix + g c)]
    ring

theorem foldl_radix_le {α : Type} (radix : ℕ) (g : α → ℕ) (cs : List α)
    (t0 : ℕ) :
    t0 * radix ^ cs.length ≤ cs.foldl (fun t c => t * radix + g c) t0 := by
  rw [foldl_radix_shift]
  exact Nat.le_add_right _ _

theorem map_range_getD {α β : Type} (l : List α) (d : α) (f : α → β) :
    (List.range l.length).map (fun i => f (l.getD i d)) = l.map f := by
  induction l with
  | nil => simp
  | cons a tl ih =>
    rw [List.length_cons, List.range_succ_eq_map]
    simp only [List.map_cons, List.map_map, List.getD_cons_zero]
    refine congrArg (f a :: ·) ?_
    rw [← ih]
    refine List.map_congr_left ?_
    intro i _
    simp [Function.comp, List.getD_cons_succ]

theorem filter_range_lt (j m : ℕ) (h : j ≤ m) :
    (List.range m).filter (fun k => decide (k < j)) = List.range j := by
  induction m with
  | zero =>
    have : j = 0 := Nat.le_zero.mp h
    simp [this]
  | succ m ih =>
    rcases Nat.lt_or_ge j (m + 1) with hj | hj
    · have hjm : j ≤ m := Nat.lt_succ_iff.mp hj
      rw [← Nat.succ_eq_add_one, List.range_succ, List.filter_append, ih hjm]
      simp [Nat.not_lt.mpr hjm]
    · have hje : j = m + 1 := Nat.le_antisymm h hj
      subst hje
      rw [List.range_succ, List.filter_append]
      have hall : (List.range m).filter (fun k => decide (k < m + 1)) = List.range m :=
        List.filter_eq_self.mpr (fun a ha => by
          simp [Nat.lt_succ_of_lt (List.mem_range.mp ha)])
      rw [hall]
      simp [List.range_succ]

theorem chunks_eq_range_map {α : Type} (L : ℕ) (hL : 0 < L) (xs : List α) :
    chunks L xs
      = (List.range (xs.length / L)).map (fun k => (xs.drop (k * L)).take L) := by
  unfold chunks
  rw [List.filter_map]
  have hpred : ∀ k ∈ List.range ((xs.length + L - 1) / L),
      ((fun w : List α => w.length == L) ∘ fun k => (xs.drop (k * L)).take L) k
        = decide (k < xs.length / L) := by
    intro k _
    simp only [Function.comp, List.length_take, List.length_drop]
    have hiff : min L (xs.length - k * L) = L ↔ k < xs.length / L := by
      have h1 : min L (xs.length - k * L) = L ↔ k * L + L ≤ xs.length := by
        generalize xs.length = n
        generalize k * L = kl
        omega
      have h2 : k * L + L = (k + 1) * L := by ring
      rw [h1, h2, ← Nat.le_div_iff_mul_le hL]
      omega
    by_cases hk : k < xs.length / L
    · simp [hiff.mpr hk, hk]
    · have hne : ¬ (min L (xs.length - k * L) = L) := fun hm => hk (hiff.mp hm)
      simp [hk, hne]
  rw [List.filter_congr hpred]
  have hdiv : xs.length / L ≤ (xs.length + L - 1) / L :=
    Nat.div_le_div_right (by omega)
  rw [filter_range_lt _ _ hdiv]

theorem chunks_map {α β : Type} (f : α → β) (L : ℕ) (xs : List α) :
    chunks L (xs.map f) = (chunks L xs).map (List.map f) := by
  unfold chunks
  rw [List.length_map]
  have h1 : (List.range ((xs.length + L - 1) / L)).map
      (fun k => ((xs.map f).drop (k * L)).take L)
      = ((List.range ((xs.length + L - 1) / L)).map
          (fun k => (xs.drop (k * L)).take L)).map (List.map f) := by
    rw [List.map_map]
    refine List.map_congr_left ?_
    intro k _
    simp [Function.comp, List.map_take, List.map_drop]
  rw [h1, List.filter_map]
  refine congrArg (List.map (List.map f)) ?_
  refine List.filter_congr ?_
  intro w _
  simp [Function.comp]

theorem mem_chunks_slice {α : Type} {L : ℕ} {xs : List α} {w : List α}
    (h : w ∈ chunks L xs) :
    ∃ k, w = (xs.drop (k * L)).take L := by
  unfold chunks at h
  obtain ⟨hw, _⟩ := List.mem_filter.mp h
  obtain ⟨k, _, hk⟩ := List.mem_map.mp hw
  exact ⟨k, hk.symm⟩

theorem length_of_mem_chunks {α : Type} {L : ℕ} {xs : List α} {w : List α}
    (h : w ∈ chunks L xs) : w.length = L := by
  unfold chunks at h
  obtain ⟨_, hlen⟩ := List.mem_filter.mp h
  simpa using hlen

theorem transformCombined_eq_map (tk : KronosDataTokenizer) (cols : List String)
    (srows : List FeatRow) (h : tk.fittedCols cols ≠ []) :
    tk.transformCombined cols srows = srows.map (rowToken tk cols) := by
  obtain ⟨c0, fcs, hfc⟩ := List.exists_cons_of_ne_nil h
  unfold KronosDataTokenizer.transformCombined
  rw [hfc]
  simp only [List.map_cons, List.headD_cons, List.length_map]
  have hbody : ∀ i, i < srows.length →
      ((srows.map (fun r => tk.binOf c0 r + tk.special_tokens.length)) ::
        fcs.map (fun c => srows.map (fun r => tk.binOf c r + tk.special_tokens.length))).foldl
        (fun token ft =>
          if i < ft.length then
            token * (tk.n_bins + tk.special_tokens.length) + ft.getD i 0
          else token) 0
      = rowToken tk cols (srows.getD i default) := by
    intro i hi
    have hstep : ∀ (t : ℕ) (c : String),
        (if i < (srows.map (fun r => tk.binOf c r + tk.special_tokens.length)).length then
          t * (tk.n_bins + tk.special_tokens.length)
            + (srows.map (fun r => tk.binOf c r + tk.special_tokens.length)).getD i 0
        else t)
        = t * (tk.n_bins + tk.special_tokens.length)
            + (tk.binOf c (srows.getD i default) + tk.special_tokens.length) := by
      intro t c
      have hilen : i < (srows.map (fun r => tk.binOf c r + tk.special_tokens.length)).length := by
        simpa using hi
      rw [if_pos hilen]
      have hgd : (srows.map (fun r => tk.binOf c r + tk.special_tokens.length)).getD i 0
          = tk.binOf c (srows.getD i default) + tk.special_tokens.length := by
        rw [List.getD_eq_getElem?_getD, List.getElem?_map,
          List.getElem?_eq_getElem hi, List.getD_eq_getElem?_getD,
          List.getElem?_eq_getElem hi]
        rfl
      rw [hgd]
    rw [rowToken, hfc]
    rw [List.foldl_cons, List.foldl_map, List.foldl_cons]
    rw [hstep 0 c0]
    refine List.foldl_ext _ _ _ ?_
    intro t c _
    exact hstep t c
  refine List.ext_getElem (by simp) ?_
  intro i h1 h2
  rw [List.getElem_map, List.getElem_range]
  have hi : i < srows.length := by simpa using h1
  have := hbody i hi
  rw [this]
  rw [List.getElem_map]
  refine congrArg (rowToken tk cols) ?_
  rw [List.getD_eq_getElem?_getD, List.getElem?_eq_getElem hi]
  rfl

theorem seqPairs_map {α β : Type} (f : α → β) (xs : List α) (L P S : ℕ) :
    seqPairs (xs.map f) L P S
      = (seqPairs xs L P S).map (fun p => (p.1.map f, p.2.map f)) := by
  unfold seqPairs
  rw [List.length_map, List.map_map]
  refine List.map_congr_left ?_
  intro k _
  simp [Function.comp, List.map_take, List.map_drop]

theorem mem_sorted_symbol_rows {data : List FeatRow} {s : String} {r : FeatRow}
    (h : r ∈ sortByTs (data.filter (fun x => x.symbol == s))) : r.symbol = s := by
  have := List.of_mem_filter (mem_sortByTs.mp h)
  simpa using this

/-! Claim theorems. -/

/-- C2: for every feature row, the composite token computed by `transform`
(through its per-row reading `rowToken`, which `transformCombined` is the
map of over the sorted rows) starts from 0 and, per fitted feature column
in column order, performs `token = token * (n_bins + |special_tokens|) +
(bin_index + |special_tokens|)`; equivalently it is the mixed-radix
encoding of the offset digit list, the first fitted column being the most
significant digit, and every digit is offset by `|special_tokens|` above
the special-token codes. -/
theorem composite_token_mixed_radix (tk : KronosDataTokenizer)
    (cols : List String) (r : FeatRow) :
    rowToken tk cols r
        = mixedRadixEncode (tk.n_bins + tk.special_tokens.length)
            ((tk.fittedCols cols).map
              (fun c => tk.binOf c r + tk.special_tokens.length))
    ∧ (∀ srows : List FeatRow, tk.fittedCols cols ≠ [] →
        tk.transformCombined cols srows = srows.map (rowToken tk cols))
    ∧ (∀ radix d ds, mixedRadixEncode radix (d :: ds)
        = d * radix ^ ds.length + mixedRadixEncode radix ds)
    ∧ (∀ d ∈ (tk.fittedCols cols).map
          (fun c => tk.binOf c r + tk.special_tokens.length),
        tk.special_tokens.length ≤ d) := by
  refine ⟨?_, ?_, ?_, ?_⟩
  · rw [rowToken, mixedRadixEncode, List.foldl_map]
  · intro srows h
    exact transformCombined_eq_map tk cols srows h
  · intro radix d ds
    rw [mixedRadixEncode, mixedRadixEncode, List.foldl_cons]
    have := foldl_radix_shift radix (fun d => d) ds (0 * radix + d)
    simpa using this
  · intro d hd
    obtain ⟨c, _, hc⟩ := List.mem_map.mp hd
    omega

theorem composite_token_mixed_radix_witness :
    rowToken tkTwoCols ["open", "close"] rowZero
        = mixedRadixEncode (tkTwoCols.n_bins + tkTwoCols.special_tokens.length)
            ((tkTwoCols.fittedCols ["open", "close"]).map
              (fun c => tkTwoCols.binOf c rowZero + tkTwoCols.special_tokens.length))
    ∧ tkTwoCols.transformCombined ["open", "close"] [rowZero]
        = [rowZero].map (rowToken tkTwoCols ["open", "close"])
    ∧ mixedRadixEncode 1005 (5 :: [5])
        = 5 * 1005 ^ 1 + mixedRadixEncode 1005 [5]
    ∧ tkTwoCols.special_tokens.length ≤ 5 := by
  obtain ⟨h1, h2, h3, h4⟩ :=
    composite_token_mixed_radix tkTwoCols ["open", "close"] rowZero
  exact ⟨h1, h2 [rowZero] (by decide), h3 1005 5 [5], by decide⟩

/-- C5: for a composite-token sequence of length `N` and
`sequence_length = L > 0`, the chunking of `transform` yields exactly the
windows at offsets `0, L, 2L, ...`, i.e. `(range (N / L)).map`, so there
are `⌊N / L⌋` windows and a trailing partial window is discarded; and
every window `transform` emits has length exactly `L`. -/
theorem transform_chunking (tk : KronosDataTokenizer) (data : List FeatRow)
    (cols : List String) (L : ℕ) (xs : List ℕ) (hL : 0 < L) :
    chunks L xs
        = (List.range (xs.length / L)).map (fun k => (xs.drop (k * L)).take L)
    ∧ ∀ w ∈ tk.transform data cols L, w.length = L := by
  refine ⟨chunks_eq_range_map L hL xs, ?_⟩
  intro w hw
  obtain ⟨s, _, hmem⟩ := List.mem_flatMap.mp hw
  exact length_of_mem_chunks hmem

theorem transform_chunking_witness :
    0 < 2
    ∧ (chunks 2 [10, 11, 12, 13, 14]
        = (List.range ([10, 11, 12, 13, 14].length / 2)).map
            (fun k => (([10, 11, 12, 13, 14].drop (k * 2)).take 2))
    ∧ ∀ w ∈ tkClose.transform (dataK 5) ["close"] 2, w.length = 2) :=
  ⟨by decide, transform_chunking tkClose (dataK 5) ["close"] 2 [10, 11, 12, 13, 14] (by decide)⟩

/-- C6: composite-token encoding is deterministic — two runs of
`transform` on the same data, feature-column list, fitted tokenizer state
and sequence length produce identical token sequences. -/
theorem transform_deterministic (tk : KronosDataTokenizer)
    (data : List FeatRow) (cols : List String) (L : ℕ)
    (out1 out2 : List (List ℕ))
    (h1 : out1 = tk.transform data cols L)
    (h2 : out2 = tk.transform data cols L) : out1 = out2 :=
  h1.trans h2.symm

theorem transform_deterministic_witness :
    tkClose.transform (dataK 5) ["close"] 2
      = tkClose.transform (dataK 5) ["close"] 2 :=
  transform_deterministic tkClose (dataK 5) ["close"] 2 _ _ rfl rfl

/-- C8: when `prepare_data_for_prediction` receives fewer rows than the
requested sequence length, it does not fail: the effective sequence length
becomes the number of available rows and the returned window is all
available rows (sorted by timestamp), of that shorter length. -/
theorem prepare_data_short_fallback (data : List FeatRow) (L : ℕ)
    (h : data.length < L) :
    prepare_data_for_prediction data L = (data.length, sortByTs data)
    ∧ (prepare_data_for_prediction data L).2.length = data.length := by
  have hlen : (sortByTs data).length = data.length := length_sortByTs data
  have hcond : (sortByTs data).length < L := by rw [hlen]; exact h
  constructor
  · simp only [prepare_data_for_prediction]
    rw [if_pos hcond, hlen]
    rw [Nat.sub_self, List.drop_zero]
  · simp only [prepare_data_for_prediction]
    rw [if_pos hcond, hlen]
    rw [Nat.sub_self, List.drop_zero]
    exact hlen

theorem prepare_data_short_fallback_witness :
    (dataK 2).length < 5
    ∧ (prepare_data_for_prediction (dataK 2) 5 = ((dataK 2).length, sortByTs (dataK 2))
        ∧ (prepare_data_for_prediction (dataK 2) 5).2.length = (dataK 2).length) :=
  ⟨by decide, prepare_data_short_fallback (dataK 2) 5 (by decide)⟩

/-- C9: persistence round trip — `load (save tk)` restores the same
`n_bins`, `vocab_size`, fitted discretizers and special-token mapping
without refitting, hence its `transform` agrees with the original
tokenizer's on every input. -/
theorem save_load_round_trip (tk : KronosDataTokenizer) :
    (KronosDataTokenizer.load tk.save).n_bins = tk.n_bins
    ∧ (KronosDataTokenizer.load tk.save).vocab_size = tk.vocab_size
    ∧ (KronosDataTokenizer.load tk.save).discretizers = tk.discretizers
    ∧ (KronosDataTokenizer.load tk.save).special_tokens = tk.special_tokens
    ∧ ∀ (data : List FeatRow) (cols : List String) (L : ℕ),
        (KronosDataTokenizer.load tk.save).transform data cols L
          = tk.transform data cols L :=
  ⟨rfl, rfl, rfl, rfl, fun _ _ _ => rfl⟩

/-- C1 (counterexample): the claimed pair count `⌊(K-L-P)/S⌋ + 1` for
`K ≥ L+P` is wrong at the boundary `K = L+P`. With `K = 3` rows,
`L = 2`, `P = 1`, `S = 1`, the claim predicts 1 pair, but
`range(0, K - L - P, S) = range(0, 0, 1)` is empty and the code produces
0 pairs. -/
theorem training_pair_count_claim_cex :
    ¬ ((create_sequences_for_training (dataK 3) ["close"] 2 1 1).1.length
        = (3 - 2 - 1) / 1 + 1) := by
  decide

/-- C1 (amended): for a single-symbol dataset with `K` rows and stride
`S > 0`, `create_sequences_for_training` produces exactly
`⌈(K - L - P) / S⌉` input/target pairs when `K > L + P` and zero pairs
when `K ≤ L + P`; with truncated natural subtraction both cases are the
single formula `(K - L - P + S - 1) / S`. -/
theorem training_pair_count (data : List FeatRow) (s : String)
    (cols : List String) (L P S : ℕ) (hS : 0 < S)
    (hsym : ∀ r ∈ data, r.symbol = s) :
    (create_sequences_for_training data cols L P S).1.length
        = (data.length - L - P + S - 1) / S
    ∧ (create_sequences_for_training data cols L P S).2.length
        = (data.length - L - P + S - 1) / S := by
  have hu : uniqueSymbols data
      = if data.map (fun r => r.symbol) = [] then [] else [s] := by
    refine uniqueList_all_eq _ s ?_
    intro x hx
    obtain ⟨r, hr, hrs⟩ := List.mem_map.mp hx
    rw [← hrs]
    exact hsym r hr
  match data with
  | [] =>
    have hz : (S - 1) / S = 0 := Nat.div_eq_of_lt (by omega)
    constructor <;>
      simp [create_sequences_for_training, uniqueSymbols, uniqueList,
        uniqueListAux, hz]
  | r0 :: rest =>
    have hne : (r0 :: rest).map (fun r => r.symbol) ≠ [] := by simp
    rw [if_neg hne] at hu
    have hfilter : (r0 :: rest).filter (fun r => r.symbol == s) = r0 :: rest :=
      List.filter_eq_self.mpr (fun r hr => by simp [hsym r hr])
    have hfm : (featMatrix (r0 :: rest) s cols).length = (r0 :: rest).length := by
      rw [featMatrix, List.length_map, hfilter, length_sortByTs]
    constructor
    · simp only [create_sequences_for_training, hu, List.flatMap_cons,
        List.flatMap_nil, List.append_nil, List.length_map]
      rw [seqPairs, List.length_map, List.length_range, hfm]
    · simp only [create_sequences_for_training, hu, List.flatMap_cons,
        List.flatMap_nil, List.append_nil, List.length_map]
      rw [seqPairs, List.length_map, List.length_range, hfm]

theorem training_pair_count_witness :
    0 < 1
    ∧ (∀ r ∈ dataK 4, r.symbol = "X")
    ∧ ((create_sequences_for_training (dataK 4) ["close"] 2 1 1).1.length
        = ((dataK 4).length - 2 - 1 + 1 - 1) / 1
      ∧ (create_sequences_for_training (dataK 4) ["close"] 2 1 1).2.length
        = ((dataK 4).length - 2 - 1 + 1 - 1) / 1) :=
  ⟨by decide, by decide,
    training_pair_count (dataK 4) "X" ["close"] 2 1 1 (by decide) (by decide)⟩

set_option maxRecDepth 100000 in
set_option maxHeartbeats 1000000 in
/-- C4: a 600-row single-symbol dataset with `sequence_length = 512`,
`prediction_length = 10`, `stride = 256` yields exactly one training pair:
the input is rows [0, 512) and the target is rows [512, 522) of the
chronologically sorted feature matrix. -/
theorem single_pair_on_600_rows :
    create_sequences_for_training (dataK 600) ["close"] 512 10 256
      = ([(featMatrix (dataK 600) "X" ["close"]).take 512],
         [((featMatrix (dataK 600) "X" ["close"]).drop 512).take 10]) := by
  decide

/-- C3: every token window of `transform` and every training pair of
`create_sequences_for_training` is drawn from the rows of one single
symbol, in chronological (timestamp-ascending) order. The row-level
windows (`transformRowWindows`, `rowPairs`) are each single-symbol and
sorted, and the emitted token windows and feature pairs are exactly the
image of those row windows under per-row tokenization / feature
extraction, so no window or pair mixes symbols. -/
theorem windows_single_symbol (tk : KronosDataTokenizer) (data : List FeatRow)
    (cols : List String) (L P S : ℕ) (h : tk.fittedCols cols ≠ []) :
    (∀ w ∈ transformRowWindows data L,
        (∀ r1 ∈ w, ∀ r2 ∈ w, r1.symbol = r2.symbol) ∧ List.Sorted tsLE w)
    ∧ tk.transform data cols L
        = (transformRowWindows data L).map (List.map (rowToken tk cols))
    ∧ (∀ p ∈ rowPairs data L P S,
        (∀ r1 ∈ p.1 ++ p.2, ∀ r2 ∈ p.1 ++ p.2, r1.symbol = r2.symbol)
          ∧ List.Sorted tsLE (p.1 ++ p.2))
    ∧ (create_sequences_for_training data cols L P S).1
        = (rowPairs data L P S).map
            (fun p => p.1.map (fun r => cols.map (fun c => r.val c)))
    ∧ (create_sequences_for_training data cols L P S).2
        = (rowPairs data L P S).map
            (fun p => p.2.map (fun r => cols.map (fun c => r.val c))) := by
  refine ⟨?_, ?_, ?_, ?_, ?_⟩
  · intro w hw
    obtain ⟨s, _, hmem⟩ := List.mem_flatMap.mp hw
    obtain ⟨k, hk⟩ := mem_chunks_slice hmem
    have hsub : List.Sublist w
        (sortByTs (data.filter (fun r => r.symbol == s))) := by
      rw [hk]
      exact (List.take_sublist _ _).trans (List.drop_sublist _ _)
    have hsym : ∀ r ∈ w, r.symbol = s := fun r hr =>
      mem_sorted_symbol_rows (hsub.subset hr)
    exact ⟨fun r1 h1 r2 h2 => (hsym r1 h1).trans (hsym r2 h2).symm,
      List.Pairwise.sublist hsub (sorted_sortByTs _)⟩
  · simp only [KronosDataTokenizer.transform, transformRowWindows,
      List.map_flatMap]
    congr 1
    funext s
    rw [transformCombined_eq_map tk cols _ h, chunks_map]
  · intro p hp
    obtain ⟨s, _, hmem⟩ := List.mem_flatMap.mp hp
    rw [seqPairs] at hmem
    obtain ⟨k, _, hk⟩ := List.mem_map.mp hmem
    have hcat : p.1 ++ p.2
        = ((sortByTs (data.filter (fun r => r.symbol == s))).drop (k * S)).take (L + P) := by
      rw [← hk]
      rw [List.take_add]
      have hdd : ((sortByTs (data.filter (fun r => r.symbol == s))).drop (k * S)).drop L
          = (sortByTs (data.filter (fun r => r.symbol == s))).drop (k * S + L) :=
        List.drop_drop L (k * S) _
      rw [hdd]
    have hsub : List.Sublist (p.1 ++ p.2)
        (sortByTs (data.filter (fun r => r.symbol == s))) := by
      rw [hcat]
      exact (List.take_sublist _ _).trans (List.drop_sublist _ _)
    have hsym : ∀ r ∈ p.1 ++ p.2, r.symbol = s := fun r hr =>
      mem_sorted_symbol_rows (hsub.subset hr)
    exact ⟨fun r1 h1 r2 h2 => (hsym r1 h1).trans (hsym r2 h2).symm,
      List.Pairwise.sublist hsub (sorted_sortByTs _)⟩
  · simp only [create_sequences_for_training, rowPairs, List.map_flatMap]
    congr 1
    funext s
    rw [featMatrix, seqPairs_map, List.map_map]
    rfl
  · simp only [create_sequences_for_training, rowPairs, List.map_flatMap]
    congr 1
    funext s
    rw [featMatrix, seqPairs_map, List.map_map]
    rfl

theorem windows_single_symbol_witness :
    tkClose.fittedCols ["close"] ≠ []
    ∧ ((∀ w ∈ transformRowWindows (dataK 5) 2,
          (∀ r1 ∈ w, ∀ r2 ∈ w, r1.symbol = r2.symbol) ∧ List.Sorted tsLE w)
      ∧ tkClose.transform (dataK 5) ["close"] 2
          = (transformRowWindows (dataK 5) 2).map
              (List.map (rowToken tkClose ["close"]))
      ∧ (∀ p ∈ rowPairs (dataK 5) 2 2 1,
          (∀ r1 ∈ p.1 ++ p.2, ∀ r2 ∈ p.1 ++ p.2, r1.symbol = r2.symbol)
            ∧ List.Sorted tsLE (p.1 ++ p.2))
      ∧ (create_sequences_for_training (dataK 5) ["close"] 2 2 1).1
          = (rowPairs (dataK 5) 2 2 1).map
              (fun p => p.1.map (fun r => ["close"].map (fun c => r.val c)))
      ∧ (create_sequences_for_training (dataK 5) ["close"] 2 2 1).2
          = (rowPairs (dataK 5) 2 2 1).map
              (fun p => p.2.map (fun r => ["close"].map (fun c => r.val c)))) :=
  ⟨by decide, windows_single_symbol tkClose (dataK 5) ["close"] 2 2 1 (by decide)⟩

theorem mem_filterPriceCol {rows : List OhlcvRow} {proj : OhlcvRow → ℚ}
    {r : OhlcvRow} (h : r ∈ filterPriceCol rows proj) :
    r ∈ rows
    ∧ priceLowerBound (rows.map proj) ≤ proj r
    ∧ proj r ≤ priceUpperBound (rows.map proj) := by
  simp only [filterPriceCol, List.mem_filter, Bool.and_eq_true,
    decide_eq_true_eq] at h
  exact ⟨h.1, h.2.1, h.2.2⟩

theorem mem_filterVolume {rows : List OhlcvRow} {r : OhlcvRow}
    (h : r ∈ filterVolume rows) :
    r ∈ rows
    ∧ max 0 (volumeLowerBound (rows.map (fun x => x.volume))) ≤ r.volume
    ∧ r.volume ≤ volumeUpperBound (rows.map (fun x => x.volume)) := by
  simp only [filterVolume, List.mem_filter, Bool.and_eq_true,
    decide_eq_true_eq] at h
  exact ⟨h.1, h.2.1, h.2.2⟩

/-- C7: every row retained by the IQR-based outlier removal of
`clean_data` satisfies, for each filtered column, the bounds the code
derives at that column's filtering step for the row's symbol group:
`Q1 - 1.5*IQR ≤ v ≤ Q3 + 1.5*IQR` for the price columns
open/high/low/close (each computed on the survivors of the previous
filters, in loop order), and `max(0, Q1 - 3*IQR) ≤ v ≤ Q3 + 3*IQR` for
volume. -/
theorem clean_data_retained_bounds (data : List OhlcvRow) (r : OhlcvRow)
    (hr : r ∈ clean_data data) :
    (priceLowerBound ((data.filter (fun x => x.symbol == r.symbol)).map (fun x => x.open_)) ≤ r.open_
      ∧ r.open_ ≤ priceUpperBound ((data.filter (fun x => x.symbol == r.symbol)).map (fun x => x.open_)))
    ∧ (priceLowerBound ((cleanStage1 (data.filter (fun x => x.symbol == r.symbol))).map (fun x => x.high)) ≤ r.high
      ∧ r.high ≤ priceUpperBound ((cleanStage1 (data.filter (fun x => x.symbol == r.symbol))).map (fun x => x.high)))
    ∧ (priceLowerBound ((cleanStage2 (data.filter (fun x => x.symbol == r.symbol))).map (fun x => x.low)) ≤ r.low
      ∧ r.low ≤ priceUpperBound ((cleanStage2 (data.filter (fun x => x.symbol == r.symbol))).map (fun x => x.low)))
    ∧ (priceLowerBound ((cleanStage3 (data.filter (fun x => x.symbol == r.symbol))).map (fun x => x.close)) ≤ r.close
      ∧ r.close ≤ priceUpperBound ((cleanStage3 (data.filter (fun x => x.symbol == r.symbol))).map (fun x => x.close)))
    ∧ (max 0 (volumeLowerBound ((cleanStage4 (data.filter (fun x => x.symbol == r.symbol))).map (fun x => x.volume))) ≤ r.volume
      ∧ r.volume ≤ volumeUpperBound ((cleanStage4 (data.filter (fun x => x.symbol == r.symbol))).map (fun x => x.volume))) := by
  obtain ⟨s, _, hmem⟩ := List.mem_flatMap.mp hr
  rw [cleanSymbol] at hmem
  obtain ⟨h4, hv1, hv2⟩ := mem_filterVolume hmem
  rw [cleanStage4] at h4
  obtain ⟨h3, hc1, hc2⟩ := mem_filterPriceCol h4
  rw [cleanStage3] at h3
  obtain ⟨h2, hl1, hl2⟩ := mem_filterPriceCol h3
  rw [cleanStage2] at h2
  obtain ⟨h1, hh1, hh2⟩ := mem_filterPriceCol h2
  rw [cleanStage1] at h1
  obtain ⟨h0, ho1, ho2⟩ := mem_filterPriceCol h1
  have hsymb : r.symbol = s := by
    have := List.of_mem_filter h0
    simpa using this
  subst hsymb
  exact ⟨⟨ho1, ho2⟩, ⟨hh1, hh2⟩, ⟨hl1, hl2⟩, ⟨hc1, hc2⟩, ⟨hv1, hv2⟩⟩

theorem seriesQuantile_singleton (v q : ℚ) : seriesQuantile [v] q = v := by
  rw [seriesQuantile,
    show List.insertionSort (fun a b : ℚ => a ≤ b) [v] = [v] from rfl]
  simp [quantileSorted, show (Rat.floor 0).toNat = 0 from rfl]

theorem filterPriceCol_singleton (r : OhlcvRow) (proj : OhlcvRow → ℚ) :
    filterPriceCol [r] proj = [r] := by
  have hlo : priceLowerBound [proj r] = proj r := by
    rw [priceLowerBound]
    simp only [seriesQuantile_singleton]
    ring
  have hhi : priceUpperBound [proj r] = proj r := by
    rw [priceUpperBound]
    simp only [seriesQuantile_singleton]
    ring
  simp [filterPriceCol, hlo, hhi]

theorem filterVolume_singleton (r : OhlcvRow) (h : 0 ≤ r.volume) :
    filterVolume [r] = [r] := by
  have hlo : volumeLowerBound [r.volume] = r.volume := by
    rw [volumeLowerBound]
    simp only [seriesQuantile_singleton]
    ring
  have hhi : volumeUpperBound [r.volume] = r.volume := by
    rw [volumeUpperBound]
    simp only [seriesQuantile_singleton]
    ring
  simp [filterVolume, hlo, hhi, max_le_iff, h]

theorem clean_data_rowO : clean_data [rowO] = [rowO] := by
  have h1 : cleanStage1 [rowO] = [rowO] := by
    rw [cleanStage1]; exact filterPriceCol_singleton rowO _
  have h2 : cleanStage2 [rowO] = [rowO] := by
    rw [cleanStage2, h1]; exact filterPriceCol_singleton rowO _
  have h3 : cleanStage3 [rowO] = [rowO] := by
    rw [cleanStage3, h2]; exact filterPriceCol_singleton rowO _
  have h4 : cleanStage4 [rowO] = [rowO] := by
    rw [cleanStage4, h3]; exact filterPriceCol_singleton rowO _
  have h5 : filterVolume [rowO] = [rowO] :=
    filterVolume_singleton rowO (by decide)
  rw [clean_data]
  have hu : uniqueList ([rowO].map (fun r => r.symbol)) = ["X"] := rfl
  rw [hu]
  simp only [List.flatMap_cons, List.flatMap_nil, List.append_nil]
  have hf : [rowO].filter (fun x => x.symbol == "X") = [rowO] := rfl
  rw [hf, cleanSymbol, h4, h5]

theorem clean_data_retained_bounds_witness :
    rowO ∈ clean_data [rowO]
    ∧ ((priceLowerBound (([rowO].filter (fun x => x.symbol == rowO.symbol)).map (fun x => x.open_)) ≤ rowO.open_
        ∧ rowO.open_ ≤ priceUpperBound (([rowO].filter (fun x => x.symbol == rowO.symbol)).map (fun x => x.open_)))
      ∧ (priceLowerBound ((cleanStage1 ([rowO].filter (fun x => x.symbol == rowO.symbol))).map (fun x => x.high)) ≤ rowO.high
        ∧ rowO.high ≤ priceUpperBound ((cleanStage1 ([rowO].filter (fun x => x.symbol == rowO.symbol))).map (fun x => x.high)))
      ∧ (priceLowerBound ((cleanStage2 ([rowO].filter (fun x => x.symbol == rowO.symbol))).map (fun x => x.low)) ≤ rowO.low
        ∧ rowO.low ≤ priceUpperBound ((cleanStage2 ([rowO].filter (fun x => x.symbol == rowO.symbol))).map (fun x => x.low)))
      ∧ (priceLowerBound ((cleanStage3 ([rowO].filter (fun x => x.symbol == rowO.symbol))).map (fun x => x.close)) ≤ rowO.close
        ∧ rowO.close ≤ priceUpperBound ((cleanStage3 ([rowO].filter (fun x => x.symbol == rowO.symbol))).map (fun x => x.close)))
      ∧ (max 0 (volumeLowerBound ((cleanStage4 ([rowO].filter (fun x => x.symbol == rowO.symbol))).map (fun x => x.volume))) ≤ rowO.volume
        ∧ rowO.volume ≤ volumeUpperBound ((cleanStage4 ([rowO].filter (fun x => x.symbol == rowO.symbol))).map (fun x => x.volume)))) :=
  ⟨by rw [clean_data_rowO]; exact List.mem_singleton_self rowO,
    clean_data_retained_bounds [rowO] rowO
      (by rw [clean_data_rowO]; exact List.mem_singleton_self rowO)⟩

theorem chunks_nil {α : Type} (L : ℕ) : chunks L ([] : List α) = [] := by
  have hz : (([] : List α).length + L - 1) / L = 0 := by
    rcases Nat.eq_zero_or_pos L with h | h
    · simp [h]
    · rw [List.length_nil]
      exact Nat.div_eq_of_lt (by omega)
  unfold chunks
  rw [hz]
  rfl

theorem mem_transform_token (tk : KronosDataTokenizer) {data : List FeatRow}
    {cols : List String} {L : ℕ} {w : List ℕ} {t : ℕ}
    (hw : w ∈ tk.transform data cols L) (ht : t ∈ w) :
    ∃ r : FeatRow, tk.fittedCols cols ≠ [] ∧ t = rowToken tk cols r := by
  simp only [KronosDataTokenizer.transform] at hw
  obtain ⟨s, _, hmem⟩ := List.mem_flatMap.mp hw
  by_cases hfc : tk.fittedCols cols = []
  · exfalso
    have hcomb : tk.transformCombined cols
        (sortByTs (data.filter (fun r => r.symbol == s))) = [] := by
      simp [KronosDataTokenizer.transformCombined, hfc]
    rw [hcomb, chunks_nil] at hmem
    exact absurd hmem (List.not_mem_nil w)
  · have hcomb := transformCombined_eq_map tk cols
      (sortByTs (data.filter (fun r => r.symbol == s))) hfc
    rw [hcomb, chunks_map] at hmem
    obtain ⟨w0, _, hww⟩ := List.mem_map.mp hmem
    rw [← hww] at ht
    obtain ⟨r, _, hrt⟩ := List.mem_map.mp ht
    exact ⟨r, hfc, hrt.symm⟩

set_option maxRecDepth 40000 in
/-- C10 (counterexample): with `n_bins = 1000` and two fitted feature
columns, a composite token need not exceed the default `vocab_size` of
10000: a row whose two features fall in bin 0 yields the token
`(0*1005 + 5)*1005 + 5 = 5030 ≤ 10000`. -/
theorem vocab_bound_claim_cex :
    tkTwoCols.n_bins = 1000
    ∧ (tkTwoCols.fittedCols ["open", "close"]).length = 2
    ∧ tkTwoCols.transform [rowZero] ["open", "close"] 1 = [[5030]]
    ∧ ¬ (10000 < 5030) :=
  ⟨rfl, by decide, by decide, by decide⟩

/-- C10 (amended): the `vocab_size` parameter has no effect on
tokenization — two tokenizers agreeing on `n_bins`, discretizers and
special tokens (as two instances fitted identically do) produce identical
token sequences; every composite token is at least `|special_tokens|`, so
it never collides with a special-token code; and with `n_bins = 1000` and
three or more fitted feature columns (not two, see the counterexample)
every composite token exceeds the default `vocab_size` of 10000. -/
theorem vocab_size_no_effect (tk1 tk2 : KronosDataTokenizer)
    (data : List FeatRow) (cols : List String) (L : ℕ)
    (hb : tk1.n_bins = tk2.n_bins) (hd : tk1.discretizers = tk2.discretizers)
    (hs : tk1.special_tokens = tk2.special_tokens) :
    tk1.transform data cols L = tk2.transform data cols L
    ∧ (∀ w ∈ tk1.transform data cols L, ∀ t ∈ w,
        tk1.special_tokens.length ≤ t)
    ∧ (tk1.n_bins = 1000 → tk1.special_tokens.length = 5 →
        3 ≤ (tk1.fittedCols cols).length →
        ∀ w ∈ tk1.transform data cols L, ∀ t ∈ w, 10000 < t) := by
  refine ⟨?_, ?_, ?_⟩
  · obtain ⟨b1, v1, d1, s1⟩ := tk1
    obtain ⟨b2, v2, d2, s2⟩ := tk2
    dsimp only at hb hd hs
    subst hb
    subst hd
    subst hs
    rfl
  · intro w hw t ht
    obtain ⟨r, hfc, hrt⟩ := mem_transform_token tk1 hw ht
    subst hrt
    obtain ⟨c0, rest, hfce⟩ := List.exists_cons_of_ne_nil hfc
    rw [rowToken, hfce, List.foldl_cons]
    rcases Nat.eq_zero_or_pos (tk1.n_bins + tk1.special_tokens.length) with hz | hp
    · have hs0 : tk1.special_tokens.length = 0 := by omega
      rw [hs0]
      exact Nat.zero_le _
    · have hle1 : tk1.special_tokens.length
          ≤ 0 * (tk1.n_bins + tk1.special_tokens.length)
            + (tk1.binOf c0 r + tk1.special_tokens.length) := by
        omega
      have hle2 : 0 * (tk1.n_bins + tk1.special_tokens.length)
            + (tk1.binOf c0 r + tk1.special_tokens.length)
          ≤ (0 * (tk1.n_bins + tk1.special_tokens.length)
              + (tk1.binOf c0 r + tk1.special_tokens.length))
            * (tk1.n_bins + tk1.special_tokens.length) ^ rest.length :=
        Nat.le_mul_of_pos_right _ (pow_pos hp _)
      exact le_trans hle1 (le_trans hle2
        (foldl_radix_le _ (fun c => tk1.binOf c r + tk1.special_tokens.length)
          rest _))
  · intro h1000 h5 h3len w hw t ht
    have hfc : tk1.fittedCols cols ≠ [] := by
      intro hnil
      rw [hnil] at h3len
      simp at h3len
    obtain ⟨r, _, hrt⟩ := mem_transform_token tk1 hw ht
    subst hrt
    obtain ⟨c0, rest, hfce⟩ := List.exists_cons_of_ne_nil hfc
    have hrest : 2 ≤ rest.length := by
      rw [hfce] at h3len
      simp at h3len
      omega
    rw [rowToken, hfce, List.foldl_cons, h1000, h5]
    simp only [show (1000 + 5 : ℕ) = 1005 from rfl]
    have hpow : 1005 ^ 2 ≤ 1005 ^ rest.length :=
      Nat.pow_le_pow_right (by omega) hrest
    have hfold := foldl_radix_le 1005
      (fun c => tk1.binOf c r + 5) rest (0 * 1005 + (tk1.binOf c0 r + 5))
    have hnum : 10000 < 5 * 1005 ^ 2 := by norm_num
    have hmul : 5 * 1005 ^ 2
        ≤ (0 * 1005 + (tk1.binOf c0 r + 5)) * 1005 ^ rest.length :=
      Nat.mul_le_mul (by omega) hpow
    omega

theorem vocab_size_no_effect_witness :
    (tkThreeCols.transform [rowZero] ["open", "close", "volume"] 1
        = tkThreeColsV.transform [rowZero] ["open", "close", "volume"] 1)
    ∧ (∀ w ∈ tkThreeCols.transform [rowZero] ["open", "close", "volume"] 1,
        ∀ t ∈ w, tkThreeCols.special_tokens.length ≤ t)
    ∧ (∀ w ∈ tkThreeCols.transform [rowZero] ["open", "close", "volume"] 1,
        ∀ t ∈ w, 10000 < t) := by
  obtain ⟨h1, h2, h3⟩ := vocab_size_no_effect tkThreeCols tkThreeColsV
    [rowZero] ["open", "close", "volume"] 1 rfl rfl rfl
  exact ⟨h1, h2, h3 rfl rfl (by decide)⟩
